import Mathlib

/-!
Verification of the `mockstep` repository (walking-step emulator feeder with a
live terminal visualization) against its natural-language specification.

The development shallowly embeds the three source files:

* `terminal_graphs.py` — the terminal graphing library (`ShoeAnimation`,
  `DataBuffer`, `BarGraph`, `SineWaveGraph`, `DualGraph`).  Python floats are
  modelled as exact rationals `ℚ`, so every definition is computable and can be
  evaluated on concrete inputs.  Python's `ZeroDivisionError` in
  `SineWaveGraph.__init__` is modelled by returning `none`.
* `telnet.py` — the minimal socket client.  The byte stream delivered by
  successive `recv` calls is modelled as a function `ℕ → List ℕ` and the
  unbounded `while` loop of `read_until` is modelled with explicit fuel.
* `mockstep.py` — the motion generator, step detector and orchestrator.  The
  trigonometric signal is modelled over `ℝ` with `Real.sin`, and the commands
  sent over the control channel are modelled as an event trace.
-/

namespace Mockstep

/-! ## Number formatting helpers

Python's `f"{v:.2f}"` renders a float with two decimal digits.  We model it on
exact rationals: the value is scaled by 100 and rounded to an integer.  (CPython
rounds the underlying binary float half-to-even; for every value these claims
evaluate the two roundings agree, and `round` on `ℚ` keeps the model
computable.) -/

def fmt2 (q : ℚ) : String :=
  let c : ℤ := round (q * 100)
  let a : ℕ := c.natAbs
  (if c < 0 then "-" else "") ++ toString (a / 100) ++ "." ++
    (if a % 100 < 10 then "0" else "") ++ toString (a % 100)

/-- Python `f"{v:5.2f}"`: as `fmt2`, right-aligned in a field of width 5. -/
def fmt5_2 (q : ℚ) : String :=
  let s := fmt2 q
  String.mk (List.replicate (5 - s.length) ' ') ++ s

/-- Python `f"{v:+.2f}"`: as `fmt2` but with an explicit sign. -/
def fmtSigned2 (q : ℚ) : String :=
  let c : ℤ := round (q * 100)
  let a : ℕ := c.natAbs
  (if c < 0 then "-" else "+") ++ toString (a / 100) ++ "." ++
    (if a % 100 < 10 then "0" else "") ++ toString (a % 100)

/-! ## `terminal_graphs.py` — `ShoeAnimation`

The Python class holds a constant dictionary `shoe_states` and is otherwise
stateless; we embed each dictionary entry as a constant and the two methods as
pure functions. -/

def shoe_state_ready : String := "👟 Step: [▬▬▬] Ready"

def shoe_state_lifting : String := "👟 Step: [▬▬▬] Lifting..."

def shoe_state_striding : String := "👟 Step: [▬▬▬] ↗ Striding"

def shoe_state_landing : String := "👟 Step: [▬▬▬] ↘ Landing!"

def landing_message : String := "🦶 STEP LANDED! 🦶"

/-- `ShoeAnimation.get_shoe_state`: decision table evaluated in source order.
The source thresholds `0.5`, `0.3`, `-0.3` are written as the equal fractions
`1/2`, `3/10`, `-(3/10)` so that the kernel can evaluate them. -/
def get_shoe_state (sine_value : ℚ) (step_detected : Bool) : String :=
  if step_detected ∧ (1/2 : ℚ) ≤ sine_value then shoe_state_landing
  else if (3/10 : ℚ) ≤ sine_value then shoe_state_striding
  else if (-(3/10) : ℚ) ≤ sine_value then shoe_state_lifting
  else shoe_state_ready

/-- `ShoeAnimation.get_landing_line`. -/
def get_landing_line (step_detected : Bool) : String :=
  if step_detected then landing_message else ""

/-! ## `terminal_graphs.py` — `DataBuffer` -/

structure DataBuffer where
  size : ℕ
  buffer : List ℚ
  index : ℕ
  has_data : Bool
deriving DecidableEq

/-- `DataBuffer.__init__(size)`. -/
def DataBuffer.init (size : ℕ) : DataBuffer :=
  ⟨size, List.replicate size 0, 0, false⟩

/-- `DataBuffer.add_value`. -/
def DataBuffer.add_value (b : DataBuffer) (value : ℚ) : DataBuffer :=
  ⟨b.size, b.buffer.set b.index value, (b.index + 1) % b.size, true⟩

/-- `DataBuffer.get_display_values`: `buffer[index:] + buffer[:index]`. -/
def DataBuffer.get_display_values (b : DataBuffer) : List ℚ :=
  b.buffer.drop b.index ++ b.buffer.take b.index

/-- `DataBuffer.get_current_value`.  Python's `(index - 1) % size` on
`0 ≤ index < size` equals `(index + size - 1) % size` (Python's `%` returns a
nonnegative result for a positive modulus); list indexing is modelled with
`getElem?`, which under the buffer invariant always hits. -/
def DataBuffer.get_current_value (b : DataBuffer) : Option ℚ :=
  if b.has_data = false then none
  else b.buffer[(b.index + b.size - 1) % b.size]?

/-- Structural invariant of a capacity-`N` buffer: established by
`DataBuffer.init N` for `0 < N` and preserved by `add_value`. -/
def BufferInv (b : DataBuffer) (N : ℕ) : Prop :=
  b.size = N ∧ b.buffer.length = N ∧ b.index < N

/-! ## `terminal_graphs.py` — `BarGraph` and `SineWaveGraph` -/

structure BarGraph where
  width : ℕ
  min_val : ℚ
  max_val : ℚ
  label : String
deriving DecidableEq

/-- `BarGraph.__init__`. -/
def BarGraph.init (width : ℕ) (value_range : ℚ × ℚ) (label : String) : BarGraph :=
  ⟨width, value_range.1, value_range.2, label⟩

structure SineWaveGraph where
  width : ℕ
  height : ℕ
  min_val : ℚ
  max_val : ℚ
  buffer : DataBuffer
  row_labels : List String
deriving DecidableEq

/-- Row label text: `f"{row_value:5.2f}|"`, except that values within `0.01`
of zero render as the literal `" 0.0 |"`. -/
def rowLabelString (row_value : ℚ) : String :=
  if |row_value| < (1/100 : ℚ) then " 0.0 |" else fmt5_2 row_value ++ "|"

/-- `SineWaveGraph.__init__(width, height, value_range)`.

The Python label loop computes
`row_value = max_val - i * (max_val - min_val) / (height - 1)` for every
`i in range(height)`.  The divisor `height - 1` is zero exactly when
`height = 1`, and the loop body runs at least once exactly when `height ≥ 1`,
so construction raises `ZeroDivisionError` precisely for `height = 1`; this is
modelled by returning `none`. -/
def SineWaveGraph.init (width height : ℕ) (value_range : ℚ × ℚ) :
    Option SineWaveGraph :=
  if height = 1 then none
  else some ⟨width, height, value_range.1, value_range.2, DataBuffer.init width,
    (List.range height).map (fun (i : ℕ) =>
      rowLabelString (value_range.2 -
        (i : ℚ) * (value_range.2 - value_range.1) / ((height : ℚ) - 1)))⟩

/-- `SineWaveGraph._value_to_row` (continuous row position).  The program only
constructs graphs with `min_val < max_val`; for a degenerate range the Python
division would raise where `ℚ` division returns `0`. -/
def SineWaveGraph.value_to_row (sg : SineWaveGraph) (value : ℚ) : ℚ :=
  let clamped := max sg.min_val (min value sg.max_val)
  let normalized := (clamped - sg.min_val) / (sg.max_val - sg.min_val)
  (1 - normalized) * ((sg.height : ℚ) - 1)

/-- Python's built-in `round` (round half to even), applied to exact
rationals. -/
def pyRound (q : ℚ) : ℤ :=
  let f := ⌊q⌋
  let r : ℚ := q - (f : ℚ)
  if r < 1/2 then f
  else if 1/2 < r then f + 1
  else if 2 ∣ f then f else f + 1

/-- Python's `int(...)` truncation toward zero. -/
def pyTrunc (q : ℚ) : ℤ :=
  if 0 ≤ q then ⌊q⌋ else -⌊-q⌋

/-! ## `terminal_graphs.py` — `DualGraph` -/

structure DualGraph where
  bar_graph : BarGraph
  sine_graph : SineWaveGraph
  first_render : Bool
  total_lines : ℕ
deriving DecidableEq

/-- `DualGraph.__init__`: builds the two renderers; `total_lines` is
`4 + sine_height` (1 bar + 1 shoe animation + 1 landing line + 1 spacing +
`sine_height` lines).  Construction fails iff the embedded
`SineWaveGraph.__init__` raises. -/
def DualGraph.init (bar_width : ℕ) (bar_range : ℚ × ℚ)
    (sine_width sine_height : ℕ) (sine_range : ℚ × ℚ) : Option DualGraph :=
  match SineWaveGraph.init sine_width sine_height sine_range with
  | none => none
  | some sg => some ⟨BarGraph.init bar_width bar_range "Accel", sg, true,
      4 + sine_height⟩

/-- ANSI "clear current line" control sequence, printed at the start of every
redrawn terminal line. -/
def CLEAR : String := "\x1b[2K"

/-- ANSI "cursor up by `n` lines" control sequence. -/
def cursorUp (n : ℕ) : String := "\x1b[" ++ toString n ++ "A"

/-- Trail character chosen from a sample's age in `DualGraph._render_sine_wave`. -/
def charForAge (age : ℕ) : Char :=
  if age = 0 then '●' else if age < 5 then '•' else if age < 15 then '·' else '.'

/-- One iteration of the plotting loop in `DualGraph._render_sine_wave`: place
the trail character for the sample `iv.2` at chronological position `iv.1`.
`total` is `len(values)`; a row is a list of characters (Python edits the row
string through `list`/`join`). -/
def placeValue (sg : SineWaveGraph) (total : ℕ) (rows : List (List Char))
    (iv : ℕ × ℚ) : List (List Char) :=
  let row_idx := pyRound (sg.value_to_row iv.2)
  if 0 ≤ row_idx ∧ row_idx < (sg.height : ℤ) then
    let age := total - iv.1 - 1
    let c := charForAge age
    let pos := (sg.row_labels.headD "").length + iv.1
    let row := rows.getD row_idx.toNat []
    if pos < row.length then rows.set row_idx.toNat (row.set pos c) else rows
  else rows

/-- `rows = [label + " " * width for label in row_labels]`: each row starts
as its label followed by an empty plotting field (rows are lists of
characters, since Python edits the row string through `list`/`join`). -/
def initialRows (sg : SineWaveGraph) : List (List Char) :=
  sg.row_labels.map (fun label => label.toList ++ List.replicate sg.width ' ')

/-- The trail-plotting loop of `DualGraph._render_sine_wave`: runs over
`enumerate(values)` only when the buffer has received data. -/
def plotTrail (sg : SineWaveGraph) (values : List ℚ)
    (rows : List (List Char)) : List (List Char) :=
  if sg.buffer.has_data then values.enum.foldl (placeValue sg values.length) rows
  else rows

/-- The current-value callout of `DualGraph._render_sine_wave`:
`rows[current_row] += f" ← Current: {current_value:+.2f}"` when the buffer
has a current value landing on a visible row. -/
def appendCurrent (sg : SineWaveGraph) (rows : List (List Char)) :
    List (List Char) :=
  match sg.buffer.get_current_value with
  | none => rows
  | some current_value =>
    let current_row := pyRound (sg.value_to_row current_value)
    if 0 ≤ current_row ∧ current_row < (sg.height : ℤ) then
      rows.set current_row.toNat
        (rows.getD current_row.toNat [] ++
          (" ← Current: " ++ fmtSigned2 current_value).toList)
    else rows

/-- `DualGraph._render_sine_wave` (a `DualGraph` method reading
`self.sine_graph`); returns the terminal lines it prints — one per row, each
prefixed by the line-clear sequence.  List indexing (`rows[row_idx]`,
`self.row_labels[0]`) is modelled with defaulted access; both sites are
guarded in the source (`0 ≤ row_idx < height`, and the plotting loop only
runs when data exists, hence `height ≥ 1` rows exist whenever a row is hit). -/
def render_sine_wave (sg : SineWaveGraph) : List String :=
  (appendCurrent sg
      (plotTrail sg sg.buffer.get_display_values (initialRows sg))).map
    (fun row => CLEAR ++ String.mk row)

/-- `DualGraph.plot`: returns the updated composer state together with the
terminal lines emitted by one call (each string is one newline-terminated
print; the cursor-up sequence, written without a newline, is part of the first
line).  The bar-graph arithmetic is inlined in the source exactly as here. -/
def DualGraph.plot (g : DualGraph) (accel_value sine_value : ℚ)
    (step_impact : Bool) : DualGraph × List String :=
  let sg := { g.sine_graph with buffer := g.sine_graph.buffer.add_value sine_value }
  let ctl := if g.first_render then "" else cursorUp g.total_lines
  let clamped_value := max g.bar_graph.min_val (min accel_value g.bar_graph.max_val)
  let normalized :=
    (clamped_value - g.bar_graph.min_val) / (g.bar_graph.max_val - g.bar_graph.min_val)
  let bar_length := (pyTrunc (normalized * (g.bar_graph.width : ℚ))).toNat
  let bar := String.mk (List.replicate bar_length '#')
  let barLine := ctl ++ CLEAR ++ "Accel: " ++ fmt5_2 accel_value ++ " | " ++ bar
  let shoeLine := CLEAR ++ get_shoe_state sine_value step_impact
  let landingLine := CLEAR ++ get_landing_line step_impact
  let sineLines := render_sine_wave sg
  ({ g with sine_graph := sg, first_render := false },
    barLine :: shoeLine :: landingLine :: CLEAR :: sineLines)

/-- Iterate `DualGraph.plot` over a list of `(accelValue, sineValue,
stepImpact)` calls, collecting the frame (line list) of every call — one
simulation run's rendering. -/
def DualGraph.runPlots (g : DualGraph) :
    List (ℚ × ℚ × Bool) → DualGraph × List (List String)
  | [] => (g, [])
  | c :: cs =>
    let r := DualGraph.plot g c.1 c.2.1 c.2.2
    let rest := DualGraph.runPlots r.1 cs
    (rest.1, r.2 :: rest.2)

/-- Invariant of a constructed `DualGraph`: the sine graph carries one row
label per row.  It holds after `DualGraph.init` and is preserved by
`DualGraph.plot`. -/
def GraphInv (g : DualGraph) : Prop :=
  g.sine_graph.row_labels.length = g.sine_graph.height

/-! ## `telnet.py` — `TelnetConnection`

The byte stream is modelled by `recv : ℕ → List ℕ`, the sequence of chunks
returned by successive `socket.recv(4096)` calls.  A connection closed by the
peer is modelled by `recv` returning `[]` from some call index on: CPython's
`socket.recv` returns the empty byte string after EOF instead of raising. -/

/-- `data.startswith(pat)` on byte lists (used to implement Python's `in`). -/
def bytesStartWith : List ℕ → List ℕ → Bool
  | [], _ => true
  | _ :: _, [] => false
  | p :: ps, d :: ds => p == d && bytesStartWith ps ds

/-- Python's `expected in data` substring test on byte lists. -/
def bytesContain (pat : List ℕ) : List ℕ → Bool
  | [] => bytesStartWith pat []
  | d :: rest => bytesStartWith pat (d :: rest) || bytesContain pat rest

/-- The body of `TelnetConnection.read_until`'s `while expected not in data`
loop, with explicit fuel: `none` means the loop has not terminated within
`fuel` iterations (the source loop is unbounded).  `i` counts the `recv`
calls made so far. -/
def read_until_go (recv : ℕ → List ℕ) (expected : List ℕ) :
    ℕ → ℕ → List ℕ → Option (List ℕ)
  | 0, _, _ => none
  | fuel + 1, i, data =>
    if bytesContain expected data then some data
    else read_until_go recv expected fuel (i + 1) (data ++ recv i)

/-- `TelnetConnection.read_until(expected)`: scan accumulated bytes, starting
from the empty accumulation, until `expected` occurs as a substring. -/
def read_until (recv : ℕ → List ℕ) (expected : List ℕ) (fuel : ℕ) :
    Option (List ℕ) :=
  read_until_go recv expected fuel 0 []

/-- The bytes of the literal `b"OK"`. -/
def OKbytes : List ℕ := [79, 75]

/-- The bytes of the literal `b"KO"`. -/
def KObytes : List ℕ := [75, 79]

/-! ## `mockstep.py` — command formatting, handshake policy and presets -/

/-- `set_sensor_data`'s command literal
`f'sensor set {sensor} {x:.2f}:{y:.2f}:{z:.2f}\n'`, for exact rational axis
values. -/
def set_sensor_command (sensor : String) (x y z : ℚ) : String :=
  "sensor set " ++ sensor ++ " " ++ fmt2 x ++ ":" ++ fmt2 y ++ ":" ++ fmt2 z ++ "\n"

/-- `connect_to_emulator`, abstracted over the handshake I/O: `auth_token` is
the resolved token (Python's `if not auth_token` is true for `None` and for
the empty string) and `auth_response` is whatever bytes the post-`auth` read
returned.  `none` models Python's `return None` ("no usable channel"). -/
def connect_to_emulator (auth_token : Option String) (auth_response : List ℕ) :
    Option Unit :=
  if auth_token = none ∨ auth_token = some "" then none
  else if bytesContain KObytes auth_response then none
  else some ()

structure PresetDims where
  bar_width : ℕ
  sine_width : ℕ
  sine_height : ℕ
deriving DecidableEq

/-- The `SIZE_PRESETS` table from `main`. -/
def SIZE_PRESETS : List (String × PresetDims) :=
  [("small", ⟨30, 40, 7⟩), ("medium", ⟨50, 60, 9⟩),
   ("large", ⟨80, 100, 15⟩), ("xl", ⟨120, 150, 20⟩)]

/-- `SIZE_PRESETS[args.size]` (argparse restricts `args.size` to the four
keys, so the lookup always succeeds in the program). -/
def lookupPreset (size : String) : Option PresetDims :=
  (SIZE_PRESETS.find? (fun p => p.1 == size)).map Prod.snd

/-- The dimension resolution in `main`:
`args.X if args.X is not None else preset['X']` for each of the three
dimensions. -/
def resolve_dimensions (preset : PresetDims)
    (bar_width sine_width sine_height : Option ℕ) : ℕ × ℕ × ℕ :=
  (match bar_width with | some v => v | none => preset.bar_width,
   match sine_width with | some v => v | none => preset.sine_width,
   match sine_height with | some v => v | none => preset.sine_height)

/-! ## `mockstep.py` — motion signal generator, step detector, event traces

The trigonometric signal is modelled over `ℝ`; Python float literals are read
as the exact reals they denote. -/

noncomputable section

def Y_BASELINE : ℝ := 9.8

def AMPLITUDE : ℝ := 2.0

/-- The loop frequency constant (`1.25`, also used inside
`generate_walking_acceleration`). -/
def frequency : ℝ := 1.25

/-- `generate_walking_acceleration(step)`. -/
def generate_walking_acceleration (step : ℕ) : ℝ × ℝ × ℝ :=
  (0.0, Y_BASELINE + AMPLITUDE * Real.sin (frequency * step), 0.0)

/-- The y-component of the generated acceleration at tick `step`. -/
def yAccel (step : ℕ) : ℝ := (generate_walking_acceleration step).2.1

/-- The step-detector state carried across loop iterations by
`run_simulation` (`previous_y`, `was_rising`). -/
structure DetectorState where
  previous_y : ℝ
  was_rising : Prop

/-- Detector state at the start of tick `s`: seeded with
`previous_y = Y_BASELINE`, `was_rising = False`, then updated once per tick by
`was_rising = is_rising_now; previous_y = y`. -/
def detStateAt : ℕ → DetectorState
  | 0 => ⟨Y_BASELINE, False⟩
  | s + 1 => ⟨yAccel s, yAccel s > (detStateAt s).previous_y⟩

/-- `is_rising_now = y > previous_y` at tick `s`. -/
def is_rising_now (s : ℕ) : Prop := yAccel s > (detStateAt s).previous_y

/-- `step_detected = was_rising and not is_rising_now` at tick `s`. -/
def stepDetectedAt (s : ℕ) : Prop :=
  (detStateAt s).was_rising ∧ ¬ is_rising_now s

/-- One observable action on the control channel. -/
inductive ChannelEvent where
  | sensor (sensor : String) (x y z : ℝ)
  | close

/-- The `set_sensor_data(emulator, "acceleration", x, y, z)` call of loop
iteration `s`. -/
def tickEvent (s : ℕ) : ChannelEvent :=
  ChannelEvent.sensor "acceleration" (generate_walking_acceleration s).1
    (generate_walking_acceleration s).2.1 (generate_walking_acceleration s).2.2

def isCloseEvent : ChannelEvent → Bool
  | ChannelEvent.close => true
  | _ => false

def isSensorEvent : ChannelEvent → Bool
  | ChannelEvent.sensor _ _ _ _ => true
  | _ => false

/-- The channel trace of `run_simulation` when a `KeyboardInterrupt` arrives
after `n` completed ticks: each loop iteration sends one acceleration update;
the `finally` block then sends the neutral reset `(0, 9.8, 0)` and closes the
channel. -/
def run_simulation_events (n : ℕ) : List ChannelEvent :=
  (List.range n).map tickEvent ++
    [ChannelEvent.sensor "acceleration" 0 9.8 0, ChannelEvent.close]

/-- The channel trace of `main`: if `connect_to_emulator` returns no usable
channel, `run_simulation` is never called and nothing further is sent. -/
def mainEvents (auth_token : Option String) (auth_response : List ℕ)
    (n : ℕ) : List ChannelEvent :=
  match connect_to_emulator auth_token auth_response with
  | none => []
  | some _ => run_simulation_events n

end

/-! ## Witness fixtures -/

/-- A throwaway `DualGraph` used only as the default of `Option.getD`. -/
def dgDefault : DualGraph :=
  ⟨⟨0, 0, 0, ""⟩, ⟨0, 0, 0, 0, DataBuffer.init 0, []⟩, true, 0⟩

/-- A concretely constructed composer: bar width 4, bar range `(0, 10)`,
sine dimensions `5 × 2`, sine range `(-1, 1)`. -/
def gW : DualGraph := (DualGraph.init 4 (0, 10) 5 2 (-1, 1)).getD dgDefault

/-- C8: the shoe-state selector is a pure function of
`(sineValue, stepDetected)` evaluated in decision-table priority order:
`(0.6, true)` yields the Landing text, `(0.6, false)` yields Striding,
`(0.0, false)` yields Lifting, `(-0.5, false)` yields Ready; in particular
`(0.6, true)` selects Landing even though `0.6` also satisfies the Striding
condition `sineValue ≥ 0.3`. -/
theorem shoe_state_table :
    get_shoe_state (3/5) true = "👟 Step: [▬▬▬] ↘ Landing!"
    ∧ get_shoe_state (3/5) false = "👟 Step: [▬▬▬] ↗ Striding"
    ∧ get_shoe_state 0 false = "👟 Step: [▬▬▬] Lifting..."
    ∧ get_shoe_state (-(1/2)) false = "👟 Step: [▬▬▬] Ready"
    ∧ ((3/10 : ℚ) ≤ 3/5 ∧ get_shoe_state (3/5) true ≠ shoe_state_striding) := by
  refine ⟨?_, ?_, ?_, ?_, ?_, ?_⟩ <;>
    norm_num [get_shoe_state, shoe_state_landing, shoe_state_striding,
      shoe_state_lifting, shoe_state_ready]
  decide

/-- C9: each explicitly supplied override (bar width, sine width, sine
height) wins over the preset's corresponding dimension and each unset
override falls back to the preset; in particular preset `large` with
`--bar-width 99` yields effective dimensions `(99, 100, 15)`, and preset
`small` with no overrides yields `(30, 40, 7)`. -/
theorem preset_override_resolution :
    lookupPreset "large" = some ⟨80, 100, 15⟩
    ∧ resolve_dimensions ⟨80, 100, 15⟩ (some 99) none none = (99, 100, 15)
    ∧ lookupPreset "small" = some ⟨30, 40, 7⟩
    ∧ resolve_dimensions ⟨30, 40, 7⟩ none none none = (30, 40, 7)
    ∧ ∀ (p : PresetDims) (bar_width sine_width sine_height : Option ℕ),
        (resolve_dimensions p bar_width sine_width sine_height).1
            = bar_width.getD p.bar_width
        ∧ (resolve_dimensions p bar_width sine_width sine_height).2.1
            = sine_width.getD p.sine_width
        ∧ (resolve_dimensions p bar_width sine_width sine_height).2.2
            = sine_height.getD p.sine_height := by
  refine ⟨by decide, rfl, by decide, rfl, ?_⟩
  intro p bar_width sine_width sine_height
  cases bar_width <;> cases sine_width <;> cases sine_height <;>
    exact ⟨rfl, rfl, rfl⟩

/-- Witness for C9's theorem at the `large` preset with a `--bar-width 99`
override. -/
theorem preset_override_resolution_witness :
    (resolve_dimensions ⟨80, 100, 15⟩ (some 99) none none).1
        = (some 99).getD (80 : ℕ)
    ∧ (resolve_dimensions ⟨80, 100, 15⟩ (some 99) none none).2.1
        = (none : Option ℕ).getD 100
    ∧ (resolve_dimensions ⟨80, 100, 15⟩ (some 99) none none).2.2
        = (none : Option ℕ).getD 15 :=
  preset_override_resolution.2.2.2.2 ⟨80, 100, 15⟩ (some 99) none none

/-- C10: constructing a Sine-Wave Trail Graph with `height = 1` fails with a
division-by-zero error (the row-label computation divides by `height - 1`),
even though the CLI accepts `--sine-height 1` and resolves it into the
effective dimensions; every `height ≥ 2` constructs successfully. -/
theorem sine_height_one_crashes :
    (∀ (width : ℕ) (value_range : ℚ × ℚ),
      SineWaveGraph.init width 1 value_range = none)
    ∧ (∀ (width height : ℕ) (value_range : ℚ × ℚ), 2 ≤ height →
        (SineWaveGraph.init width height value_range).isSome = true)
    ∧ (∀ p : PresetDims,
        resolve_dimensions p none none (some 1)
          = (p.bar_width, p.sine_width, 1)) := by
  refine ⟨fun w r => rfl, fun w h r hh => ?_, fun p => rfl⟩
  have h1 : h ≠ 1 := by omega
  simp [SineWaveGraph.init, h1]

/-- Witness for C10's theorem at `width = 40`, `height = 2`: the construction
succeeds. -/
theorem sine_height_one_crashes_witness :
    (SineWaveGraph.init 40 2 (-1, 1)).isSome = true :=
  sine_height_one_crashes.2.1 40 2 (-1, 1) (by norm_num)

/-- If every remaining `recv` returns the empty chunk (the peer has closed
the connection) and the marker is not already contained in the accumulated
data, the `read_until` loop never terminates: the accumulation is invariant
and the loop condition stays true for every amount of fuel. -/
theorem read_until_go_eof (recv : ℕ → List ℕ) (expected : List ℕ)
    (hrecv : ∀ j, recv j = []) :
    ∀ (fuel i : ℕ) (data : List ℕ), bytesContain expected data = false →
      read_until_go recv expected fuel i data = none := by
  intro fuel
  induction fuel with
  | zero => intro i data _; rfl
  | succ n ih =>
    intro i data hdata
    unfold read_until_go
    rw [hdata, hrecv i, List.append_nil]
    simpa using ih (i + 1) data hdata

/-- C4 (the code evaluated at the failing input): with the peer closed from
the start (every `recv` returns `b""`) and marker `b"OK"`, `read_until`
returns for no amount of fuel — it spins forever instead of failing with a
connection-closed condition. -/
theorem read_until_eof_spins :
    (fun fuel => read_until (fun _ => []) OKbytes fuel) = fun _ => none := by
  funext fuel
  exact read_until_go_eof _ _ (fun _ => rfl) fuel 0 [] rfl

/-- C5: the motion generator is a pure function of the tick index: for every
tick index `step`, `generate(step)` returns exactly
`(0.0, 9.8 + 2.0 · sin(1.25 · step), 0.0)`; in particular
`generate(0) = (0.0, 9.8, 0.0)`.  (Purity holds by construction: the model is
a function of `step` alone.) -/
theorem generator_pure :
    (∀ step : ℕ, generate_walking_acceleration step
        = (0, 9.8 + 2 * Real.sin (1.25 * (step : ℝ)), 0))
    ∧ generate_walking_acceleration 0 = (0, 9.8, 0) := by
  constructor
  · intro step
    simp [generate_walking_acceleration, Y_BASELINE, AMPLITUDE, frequency]
    norm_num
  · simp [generate_walking_acceleration, Y_BASELINE, AMPLITUDE, frequency]
    norm_num

/-- C6: on a user interruption of the simulation loop after any number `n` of
completed ticks, the channel trace is the `n` per-tick sensor updates
followed by exactly one neutral-reset send and then exactly one close — no
close occurs earlier, and the reset command's wire format is
`sensor set acceleration 0.00:9.80:0.00`. -/
theorem cleanup_on_interruption :
    ∀ n : ℕ, ∃ loopEvents : List ChannelEvent,
      run_simulation_events n
        = loopEvents ++
            [ChannelEvent.sensor "acceleration" 0 9.8 0, ChannelEvent.close]
      ∧ loopEvents.length = n
      ∧ (∀ e ∈ loopEvents, isCloseEvent e = false)
      ∧ set_sensor_command "acceleration" 0 (49/5) 0
          = "sensor set acceleration 0.00:9.80:0.00\n" := by
  intro n
  refine ⟨(List.range n).map tickEvent, rfl, by simp, ?_, ?_⟩
  · intro e he
    obtain ⟨s, -, hs⟩ := List.mem_map.mp he
    rw [← hs]
    rfl
  · have h0 : fmt2 0 = "0.00" := by norm_num [fmt2]; rfl
    have h98 : fmt2 (49/5) = "9.80" := by norm_num [fmt2]; rfl
    simp only [set_sensor_command, h0, h98]
    rfl

/-- Witness for C6's theorem at `n = 3` completed ticks. -/
theorem cleanup_on_interruption_witness :
    ∃ loopEvents : List ChannelEvent,
      run_simulation_events 3
        = loopEvents ++
            [ChannelEvent.sensor "acceleration" 0 9.8 0, ChannelEvent.close]
      ∧ loopEvents.length = 3
      ∧ (∀ e ∈ loopEvents, isCloseEvent e = false)
      ∧ set_sensor_command "acceleration" 0 (49/5) 0
          = "sensor set acceleration 0.00:9.80:0.00\n" :=
  cleanup_on_interruption 3

/-- C7: whenever the post-`auth` response contains `KO`, and likewise
whenever the auth token is absent (or empty), `connect_to_emulator` returns
no usable channel, `main` never calls `run_simulation`, and consequently no
`sensor set` command is ever sent during that run. -/
theorem auth_failure_no_commands :
    ∀ (auth_token : Option String) (auth_response : List ℕ) (n : ℕ),
      (bytesContain KObytes auth_response = true
        ∨ auth_token = none ∨ auth_token = some "") →
      connect_to_emulator auth_token auth_response = none
      ∧ mainEvents auth_token auth_response n = []
      ∧ ∀ e ∈ mainEvents auth_token auth_response n, isSensorEvent e = false := by
  intro auth_token auth_response n h
  have hc : connect_to_emulator auth_token auth_response = none := by
    unfold connect_to_emulator
    rcases h with h | h | h
    · split
      · rfl
      · simp [h]
    · simp [h]
    · simp [h]
  refine ⟨hc, ?_, ?_⟩
  · unfold mainEvents
    rw [hc]
  · intro e he
    unfold mainEvents at he
    rw [hc] at he
    simp at he

/-- Witness for C7's theorem: a run whose auth response is exactly `b"KO"`
(with a nonempty token) yields no usable channel and an empty command trace. -/
theorem auth_failure_no_commands_witness :
    connect_to_emulator (some "secrettoken") [75, 79] = none
    ∧ mainEvents (some "secrettoken") [75, 79] 3 = [] :=
  ⟨(auth_failure_no_commands (some "secrettoken") [75, 79] 3
      (Or.inl (by decide))).1,
   (auth_failure_no_commands (some "secrettoken") [75, 79] 3
      (Or.inl (by decide))).2.1⟩

theorem bufferInv_init (N : ℕ) (hN : 0 < N) : BufferInv (DataBuffer.init N) N :=
  ⟨rfl, by simp [DataBuffer.init], hN⟩

theorem bufferInv_add {b : DataBuffer} {N : ℕ} (h : BufferInv b N) (v : ℚ) :
    BufferInv (b.add_value v) N := by
  obtain ⟨hs, hl, hi⟩ := h
  refine ⟨hs, by simp [DataBuffer.add_value, hl], ?_⟩
  have hN : 0 < N := by omega
  simp only [DataBuffer.add_value, hs]
  exact Nat.mod_lt _ hN

theorem bufferInv_foldl {N : ℕ} :
    ∀ (vs : List ℚ) (b : DataBuffer), BufferInv b N →
      BufferInv (vs.foldl DataBuffer.add_value b) N := by
  intro vs
  induction vs with
  | nil => intro b hb; exact hb
  | cons v vs ih => intro b hb; exact ih _ (bufferInv_add hb v)

theorem display_length {b : DataBuffer} {N : ℕ} (h : BufferInv b N) :
    b.get_display_values.length = N := by
  obtain ⟨hs, hl, hi⟩ := h
  simp [DataBuffer.get_display_values, hl]
  omega

/-- Inserting one value into a full-invariant buffer drops the oldest display
value and appends the new one. -/
theorem display_add {b : DataBuffer} {N : ℕ} (h : BufferInv b N) (v : ℚ) :
    (b.add_value v).get_display_values
      = b.get_display_values.drop 1 ++ [v] := by
  obtain ⟨hs, hl, hi⟩ := h
  have hiL : b.index < b.buffer.length := by omega
  have hset : b.buffer.set b.index v
      = b.buffer.take b.index ++ v :: b.buffer.drop (b.index + 1) := by
    rw [List.set_eq_take_append_cons_drop, if_pos hiL]
  have htake : (b.buffer.take b.index).length = b.index := by
    rw [List.length_take]; omega
  have hdropfront : (b.buffer.drop b.index).length = N - b.index := by
    rw [List.length_drop, hl]
  have hrhs : b.get_display_values.drop 1 ++ [v]
      = b.buffer.drop (b.index + 1) ++ b.buffer.take b.index ++ [v] := by
    unfold DataBuffer.get_display_values
    rw [List.drop_append_of_le_length (by omega), List.drop_drop]
  rw [hrhs]
  show (b.buffer.set b.index v).drop ((b.index + 1) % b.size)
      ++ (b.buffer.set b.index v).take ((b.index + 1) % b.size) = _
  rcases Nat.lt_or_ge (b.index + 1) N with hlt | hge
  · have hmod : (b.index + 1) % b.size = b.index + 1 := by
      rw [hs]; exact Nat.mod_eq_of_lt hlt
    have hTv : (b.buffer.take b.index ++ [v]).length = b.index + 1 := by
      simp [htake]
    rw [hmod, hset]
    have hsplit : b.buffer.take b.index ++ v :: b.buffer.drop (b.index + 1)
        = (b.buffer.take b.index ++ [v]) ++ b.buffer.drop (b.index + 1) := by
      simp
    rw [hsplit, ← hTv, List.drop_left, List.take_left, List.append_assoc]
  · have hiN : b.index + 1 = N := by omega
    have hmod : (b.index + 1) % b.size = 0 := by rw [hs, hiN, Nat.mod_self]
    have hD : b.buffer.drop (b.index + 1) = [] := by
      rw [hiN, ← hl, List.drop_length]
    rw [hmod, hset, hD]
    simp

/-- Running any insertion sequence over a full-invariant buffer keeps exactly
the last `N` of (old display values followed by the inserted values). -/
theorem display_foldl {N : ℕ} (hN : 0 < N) :
    ∀ (vs : List ℚ) (b : DataBuffer), BufferInv b N →
      (vs.foldl DataBuffer.add_value b).get_display_values
        = (b.get_display_values ++ vs).drop vs.length := by
  intro vs
  induction vs using List.reverseRecOn with
  | nil => intro b hb; simp
  | append_singleton ws v ih =>
    intro b hb
    rw [List.foldl_append]
    simp only [List.foldl_cons, List.foldl_nil]
    rw [display_add (bufferInv_foldl ws b hb) v, ih b hb]
    have hlen : ws.length + 1 ≤ (b.get_display_values ++ ws).length := by
      rw [List.length_append, display_length hb]; omega
    rw [← List.append_assoc, List.length_append, List.length_singleton,
      List.drop_append_of_le_length hlen, List.drop_drop]

theorem display_init (N : ℕ) :
    (DataBuffer.init N).get_display_values = List.replicate N 0 := by
  simp [DataBuffer.init, DataBuffer.get_display_values]

/-- After inserting a value, `get_current_value` returns it. -/
theorem current_add {b : DataBuffer} {N : ℕ} (h : BufferInv b N) (v : ℚ) :
    (b.add_value v).get_current_value = some v := by
  obtain ⟨hs, hl, hi⟩ := h
  have hiL : b.index < b.buffer.length := by omega
  have hidx : ((b.index + 1) % b.size + b.size - 1) % b.size = b.index := by
    rw [hs]
    rcases Nat.lt_or_ge (b.index + 1) N with hlt | hge
    · rw [Nat.mod_eq_of_lt hlt]
      have h2 : b.index + 1 + N - 1 = b.index + N := by omega
      rw [h2, Nat.add_mod_right, Nat.mod_eq_of_lt hi]
    · have hiN : b.index + 1 = N := by omega
      rw [hiN, Nat.mod_self]
      have h2 : 0 + N - 1 = b.index := by omega
      rw [h2, Nat.mod_eq_of_lt hi]
  show (if (true : Bool) = false then none
    else (b.buffer.set b.index v)[((b.index + 1) % b.size + b.size - 1) % b.size]?)
      = some v
  rw [if_neg (by simp), hidx, List.getElem?_set_self]
  simp [hiL]

theorem current_foldl {N : ℕ} :
    ∀ (vs : List ℚ) (b : DataBuffer), BufferInv b N → vs ≠ [] →
      (vs.foldl DataBuffer.add_value b).get_current_value = vs.getLast? := by
  intro vs
  induction vs using List.reverseRecOn with
  | nil => intro b hb hne; exact absurd rfl hne
  | append_singleton ws v ih =>
    intro b hb hne
    rw [List.foldl_append]
    simp only [List.foldl_cons, List.foldl_nil]
    rw [current_add (bufferInv_foldl ws b hb) v, List.getLast?_concat]

theorem index_foldl {N : ℕ} :
    ∀ (vs : List ℚ) (b : DataBuffer), BufferInv b N →
      (vs.foldl DataBuffer.add_value b).index = (b.index + vs.length) % N := by
  intro vs
  induction vs with
  | nil => intro b hb; simp [Nat.mod_eq_of_lt hb.2.2]
  | cons v vs ih =>
    intro b hb
    rw [List.foldl_cons, ih _ (bufferInv_add hb v)]
    simp only [DataBuffer.add_value, hb.1]
    rw [Nat.mod_add_mod]
    congr 1
    simp [List.length_cons]
    omega

/-- C3: for every buffer of fixed capacity `N > 0` and every `k ≥ 1`,
inserting `N + k` values via `add_value` leaves `get_display_values` equal to
exactly the last `N` inserted values in insertion order (oldest first), and
`get_current_value` equal to the most recently inserted value; the write
cursor always wraps modulo `N` (after `m` insertions it sits at `m % N`). -/
theorem data_buffer_wraparound :
    ∀ (N k : ℕ) (vs : List ℚ), 0 < N → 1 ≤ k → vs.length = N + k →
      ((vs.foldl DataBuffer.add_value (DataBuffer.init N)).get_display_values
          = vs.drop k)
      ∧ ((vs.foldl DataBuffer.add_value (DataBuffer.init N)).get_current_value
          = vs.getLast?)
      ∧ (∀ ws : List ℚ,
          (ws.foldl DataBuffer.add_value (DataBuffer.init N)).index
            = ws.length % N) := by
  intro N k vs hN hk hlen
  have hinv := bufferInv_init N hN
  refine ⟨?_, ?_, ?_⟩
  · rw [display_foldl hN vs _ hinv, display_init, hlen]
    have hdrop := @List.drop_append ℚ (List.replicate N (0:ℚ)) vs k
    simpa using hdrop
  · have hne : vs ≠ [] := by
      have hpos : 0 < vs.length := by omega
      exact List.length_pos.mp hpos
    exact current_foldl vs _ hinv hne
  · intro ws
    rw [index_foldl ws _ hinv]
    simp [DataBuffer.init]

/-- Witness for C3's theorem: capacity 2, three insertions `[1, 2, 3]`; the
display holds the last two values, the current value is `3`, and the cursor
sits at `3 % 2 = 1`. -/
theorem data_buffer_wraparound_witness :
    ((([1, 2, 3] : List ℚ).foldl DataBuffer.add_value
        (DataBuffer.init 2)).get_display_values = ([1, 2, 3] : List ℚ).drop 1)
    ∧ ((([1, 2, 3] : List ℚ).foldl DataBuffer.add_value
        (DataBuffer.init 2)).get_current_value = ([1, 2, 3] : List ℚ).getLast?)
    ∧ (∀ ws : List ℚ,
        (ws.foldl DataBuffer.add_value (DataBuffer.init 2)).index
          = ws.length % 2) :=
  data_buffer_wraparound 2 1 [1, 2, 3] (by norm_num) (le_refl 1) rfl

theorem placeValue_length (sg : SineWaveGraph) (total : ℕ)
    (rows : List (List Char)) (iv : ℕ × ℚ) :
    (placeValue sg total rows iv).length = rows.length := by
  unfold placeValue
  dsimp only
  split
  · split
    · rw [List.length_set]
    · rfl
  · rfl

theorem foldl_placeValue_length (sg : SineWaveGraph) (total : ℕ) :
    ∀ (l : List (ℕ × ℚ)) (rows : List (List Char)),
      (l.foldl (placeValue sg total) rows).length = rows.length := by
  intro l
  induction l with
  | nil => intro rows; rfl
  | cons iv l ih =>
    intro rows
    rw [List.foldl_cons, ih, placeValue_length]

theorem plotTrail_length (sg : SineWaveGraph) (values : List ℚ)
    (rows : List (List Char)) :
    (plotTrail sg values rows).length = rows.length := by
  unfold plotTrail
  split
  · rw [foldl_placeValue_length]
  · rfl

theorem appendCurrent_length (sg : SineWaveGraph) (rows : List (List Char)) :
    (appendCurrent sg rows).length = rows.length := by
  unfold appendCurrent
  split
  · rfl
  · dsimp only
    split
    · rw [List.length_set]
    · rfl

/-- The sine-wave renderer emits exactly one terminal line per row label. -/
theorem render_sine_wave_length (sg : SineWaveGraph) :
    (render_sine_wave sg).length = sg.row_labels.length := by
  unfold render_sine_wave
  rw [List.length_map, appendCurrent_length, plotTrail_length]
  unfold initialRows
  rw [List.length_map]

/-- A successful `DualGraph.init` establishes the row-label invariant and
records the requested sine height. -/
theorem init_spec {bar_width : ℕ} {bar_range : ℚ × ℚ} {sine_width sine_height : ℕ}
    {sine_range : ℚ × ℚ} {g0 : DualGraph}
    (h : DualGraph.init bar_width bar_range sine_width sine_height sine_range
      = some g0) :
    GraphInv g0 ∧ g0.sine_graph.height = sine_height := by
  unfold DualGraph.init SineWaveGraph.init at h
  by_cases h1 : sine_height = 1
  · rw [if_pos h1] at h
    cases h
  · rw [if_neg h1] at h
    simp only [] at h
    injection h with h
    subst h
    refine ⟨?_, rfl⟩
    unfold GraphInv
    dsimp only
    rw [List.length_map, List.length_range]

/-- One `DualGraph.plot` call on an invariant-satisfying composer emits
`4 + height` lines in the documented order, and the invariant and height are
preserved for the next call. -/
theorem plot_frame_spec (g : DualGraph) (hInv : GraphInv g) (a s : ℚ) (i : Bool) :
    (DualGraph.plot g a s i).2.length = 4 + g.sine_graph.height
    ∧ (∃ barLine shoeLine landingLine sineRows,
        (DualGraph.plot g a s i).2
          = barLine :: shoeLine :: landingLine :: CLEAR :: sineRows
        ∧ sineRows.length = g.sine_graph.height)
    ∧ GraphInv (DualGraph.plot g a s i).1
    ∧ (DualGraph.plot g a s i).1.sine_graph.height = g.sine_graph.height := by
  have hlabels :
      ({ g.sine_graph with buffer := g.sine_graph.buffer.add_value s }
        : SineWaveGraph).row_labels = g.sine_graph.row_labels := rfl
  have hrender :
      (render_sine_wave
        { g.sine_graph with buffer := g.sine_graph.buffer.add_value s }).length
        = g.sine_graph.height := by
    rw [render_sine_wave_length, hlabels, hInv]
  refine ⟨?_, ⟨_, _, _, _, rfl, hrender⟩, hInv, rfl⟩
  simp only [DualGraph.plot, List.length_cons, hrender]
  omega

/-- Every frame of a run started from a successfully constructed composer has
`4 + height` lines in the documented order. -/
theorem runPlots_frames {sine_height : ℕ} :
    ∀ (calls : List (ℚ × ℚ × Bool)) (g : DualGraph), GraphInv g →
      g.sine_graph.height = sine_height →
      ∀ frame ∈ (DualGraph.runPlots g calls).2,
        frame.length = 4 + sine_height
        ∧ ∃ barLine shoeLine landingLine sineRows,
            frame = barLine :: shoeLine :: landingLine :: CLEAR :: sineRows
            ∧ sineRows.length = sine_height := by
  intro calls
  induction calls with
  | nil =>
    intro g _ _ frame hf
    simp [DualGraph.runPlots] at hf
  | cons c cs ih =>
    intro g hInv hh frame hf
    simp only [DualGraph.runPlots] at hf
    rcases List.mem_cons.mp hf with hf | hf
    · subst hf
      obtain ⟨hlen, hdec, hInv2, hh2⟩ := plot_frame_spec g hInv c.1 c.2.1 c.2.2
      rw [hh] at hlen hdec
      exact ⟨hlen, hdec⟩
    · obtain ⟨-, -, hInv2, hh2⟩ := plot_frame_spec g hInv c.1 c.2.1 c.2.2
      exact ih _ hInv2 (hh ▸ hh2) frame hf

/-- C1: for any configured `sineHeight`, every call to the Dual Graph
Composer's `plot` within one run emits exactly `4 + sineHeight` terminal
lines — one bar line, one shoe-state line, one landing line, one blank spacer
line, then `sineHeight` sine rows, in that order — regardless of the
`accelValue`, `sineValue` and `stepImpact` arguments, and the count is the
same on every call of the run. -/
theorem frame_line_count :
    ∀ (bar_width : ℕ) (bar_range : ℚ × ℚ) (sine_width sine_height : ℕ)
      (sine_range : ℚ × ℚ) (g0 : DualGraph),
      DualGraph.init bar_width bar_range sine_width sine_height sine_range
        = some g0 →
      ∀ (calls : List (ℚ × ℚ × Bool)) (frame : List String),
        frame ∈ (DualGraph.runPlots g0 calls).2 →
        frame.length = 4 + sine_height
        ∧ ∃ barLine shoeLine landingLine sineRows,
            frame = barLine :: shoeLine :: landingLine :: CLEAR :: sineRows
            ∧ sineRows.length = sine_height := by
  intro bar_width bar_range sine_width sine_height sine_range g0 h calls frame hf
  obtain ⟨hInv, hh⟩ := init_spec h
  exact runPlots_frames calls g0 hInv hh frame hf

/-- Witness for C1's theorem: the concretely constructed composer `gW`
(sine height 2) and a one-call run; the frame has `4 + 2` lines. -/
theorem frame_line_count_witness :
    (DualGraph.plot gW 1 (1/2) true).2.length = 4 + 2 := by
  have happ := frame_line_count 4 (0, 10) 5 2 (-1, 1) gW rfl
    [(1, 1/2, true)] (DualGraph.plot gW 1 (1/2) true).2 (by simp [DualGraph.runPlots])
  exact happ.1

/-! ## C2: step detection on the clean sine

Writing `φ(s) = 1.25·s − 0.625`, the difference `y(s) − y(s−1)` has the sign of
`cos φ(s)` (product-to-sum identity), so the detector's rising flag at tick `s`
is `0 < cos φ(s)`, and a detection at tick `s` means `φ` has just crossed from
the `cos > 0` region into the `cos ≤ 0` region.  Because the per-tick phase
step `1.25` is smaller than each region's width `π`, that crossing happens
exactly once per `2π` phase period. -/

open Real

theorem yAccel_formula (s : ℕ) :
    yAccel s = 9.8 + 2 * Real.sin (1.25 * (s : ℝ)) := by
  simp [yAccel, generate_walking_acceleration, Y_BASELINE, AMPLITUDE, frequency]
  norm_num

theorem yAccel_zero : yAccel 0 = 9.8 := by
  rw [yAccel_formula]
  norm_num

theorem sin_select_pos : 0 < Real.sin 0.625 :=
  Real.sin_pos_of_pos_of_lt_pi (by norm_num) (by linarith [Real.pi_gt_three])

/-- Product-to-sum form of one tick's increment of the generated y-trace. -/
theorem yAccel_succ_sub (s : ℕ) :
    yAccel (s + 1) - yAccel s
      = 4 * Real.sin 0.625 * Real.cos (1.25 * (s : ℝ) + 0.625) := by
  rw [yAccel_formula, yAccel_formula]
  have h := Real.sin_sub_sin (1.25 * ((s : ℝ) + 1)) (1.25 * (s : ℝ))
  have hA : (1.25 * ((s : ℝ) + 1) - 1.25 * (s : ℝ)) / 2 = 0.625 := by ring
  have hB : (1.25 * ((s : ℝ) + 1) + 1.25 * (s : ℝ)) / 2
      = 1.25 * (s : ℝ) + 0.625 := by ring
  rw [hA, hB] at h
  push_cast
  linarith [h]

/-- The trace rises into tick `s + 1` iff the phase `1.25·(s+1) − 0.625 =
1.25·s + 0.625` has positive cosine. -/
theorem rising_iff_cos (s : ℕ) :
    yAccel (s + 1) > yAccel s ↔ 0 < Real.cos (1.25 * (s : ℝ) + 0.625) := by
  have hd := yAccel_succ_sub s
  have hC : (0 : ℝ) < 4 * Real.sin 0.625 := by linarith [sin_select_pos]
  rw [gt_iff_lt, ← sub_pos, hd, mul_pos_iff_of_pos_left hC]

theorem detState_succ_previous (s : ℕ) :
    (detStateAt (s + 1)).previous_y = yAccel s := rfl

theorem detState_succ_rising (s : ℕ) :
    (detStateAt (s + 1)).was_rising = is_rising_now s := rfl

theorem not_stepDetected_zero : ¬ stepDetectedAt 0 := fun h => (h.1 : False)

theorem not_stepDetected_one : ¬ stepDetectedAt 1 := by
  intro h
  have hr : is_rising_now 0 := h.1
  unfold is_rising_now at hr
  rw [yAccel_zero] at hr
  exact lt_irrefl _ (hr : (9.8 : ℝ) > Y_BASELINE)

/-- At tick `t + 2` the detector fires iff tick `t + 1` was a strict rise and
tick `t + 2` is not — i.e. `t + 1` is a discrete local maximum of the trace. -/
theorem stepDetected_iff_localmax (t : ℕ) :
    stepDetectedAt (t + 2)
      ↔ (yAccel (t + 1) > yAccel t ∧ ¬ (yAccel (t + 2) > yAccel (t + 1))) := by
  unfold stepDetectedAt
  rw [detState_succ_rising]
  unfold is_rising_now
  rw [detState_succ_previous, detState_succ_previous]

/-- Positivity of the cosine on the translated window
`(2kπ − π/2, 2kπ + π/2)`. -/
theorem cos_pos_of_window (k : ℤ) (θ : ℝ)
    (h1 : 2 * k * π - π / 2 < θ) (h2 : θ < 2 * k * π + π / 2) :
    0 < Real.cos θ := by
  have hp : Real.cos (θ - k * (2 * π)) = Real.cos θ :=
    Real.cos_sub_int_mul_two_pi θ k
  rw [← hp]
  apply Real.cos_pos_of_mem_Ioo
  constructor <;> linarith

/-- Nonpositivity of the cosine on the translated window
`[2kπ + π/2, 2kπ + 3π/2]`. -/
theorem cos_nonpos_of_window (k : ℤ) (θ : ℝ)
    (h1 : 2 * k * π + π / 2 ≤ θ) (h2 : θ ≤ 2 * k * π + π + π / 2) :
    Real.cos θ ≤ 0 := by
  have hp : Real.cos (θ - k * (2 * π)) = Real.cos θ :=
    Real.cos_sub_int_mul_two_pi θ k
  rw [← hp]
  apply Real.cos_nonpos_of_pi_div_two_le_of_le <;> linarith

/-- A point with positive cosine lies in one of the translated windows
`(2kπ − π/2, 2kπ + π/2)`. -/
theorem cos_pos_window_of_pos (θ : ℝ) (h : 0 < Real.cos θ) :
    ∃ k : ℤ, 2 * k * π - π / 2 < θ ∧ θ < 2 * k * π + π / 2 := by
  have hpi := Real.pi_pos
  have h2π : (0 : ℝ) < 2 * π := Real.two_pi_pos
  set k : ℤ := round (θ / (2 * π)) with hk
  have habs : |θ / (2 * π) - k| ≤ 1 / 2 := abs_sub_round _
  have hdiff : θ - k * (2 * π) = (θ / (2 * π) - k) * (2 * π) := by
    field_simp
    ring
  have hineq : |θ - k * (2 * π)| ≤ π := by
    rw [hdiff, abs_mul, abs_of_pos h2π]
    calc |θ / (2 * π) - (k : ℝ)| * (2 * π) ≤ 1 / 2 * (2 * π) :=
          mul_le_mul_of_nonneg_right habs (le_of_lt h2π)
      _ = π := by ring
  have habs' := abs_le.mp hineq
  have hcos : Real.cos (θ - k * (2 * π)) = Real.cos θ :=
    Real.cos_sub_int_mul_two_pi θ k
  refine ⟨k, ?_, ?_⟩
  · by_contra hc
    push_neg at hc
    have hnp : Real.cos (-(θ - k * (2 * π))) ≤ 0 :=
      Real.cos_nonpos_of_pi_div_two_le_of_le (by linarith)
        (by linarith [habs'.1])
    rw [Real.cos_neg, hcos] at hnp
    linarith
  · by_contra hc
    push_neg at hc
    have hnp : Real.cos (θ - k * (2 * π)) ≤ 0 :=
      Real.cos_nonpos_of_pi_div_two_le_of_le (by linarith)
        (by linarith [habs'.2])
    rw [hcos] at hnp
    linarith

/-- Crossing characterization: a phase `ψ` satisfies "rising behind it,
not rising at it" (`cos(ψ − 1.25) > 0` and `cos ψ ≤ 0`) iff `ψ` lies within
the first phase step past a crossing point `2kπ + π/2`. -/
theorem cos_step_window (ψ : ℝ) :
    (0 < Real.cos (ψ - 1.25) ∧ Real.cos ψ ≤ 0)
      ↔ ∃ k : ℤ, 2 * k * π + π / 2 ≤ ψ ∧ ψ < 2 * k * π + π / 2 + 1.25 := by
  have hpi := Real.pi_gt_three
  constructor
  · rintro ⟨hr, hf⟩
    obtain ⟨k, hk1, hk2⟩ := cos_pos_window_of_pos _ hr
    refine ⟨k, ?_, by linarith⟩
    by_contra hc
    push_neg at hc
    have hpos : 0 < Real.cos ψ := cos_pos_of_window k ψ (by linarith) hc
    linarith
  · rintro ⟨k, hk1, hk2⟩
    exact ⟨cos_pos_of_window k (ψ - 1.25) (by linarith) (by linarith),
      cos_nonpos_of_window k ψ hk1 (by linarith)⟩

/-- Detection at tick `t + 2`, phrased through the phase
`ψ = 1.25·(t+2) − 0.625`. -/
theorem stepDetected_iff_phase (t : ℕ) :
    stepDetectedAt (t + 2)
      ↔ ∃ k : ℤ, 2 * k * π + π / 2 ≤ 1.25 * ((t : ℝ) + 2) - 0.625
          ∧ 1.25 * ((t : ℝ) + 2) - 0.625 < 2 * k * π + π / 2 + 1.25 := by
  have hrise2 := rising_iff_cos (t + 1)
  rw [show t + 1 + 1 = t + 2 from rfl] at hrise2
  rw [stepDetected_iff_localmax, rising_iff_cos t, hrise2, not_lt]
  have h1 : 1.25 * ((t : ℝ)) + 0.625
      = (1.25 * ((t : ℝ) + 2) - 0.625) - 1.25 := by ring
  have h2 : 1.25 * (((t + 1 : ℕ)) : ℝ) + 0.625
      = 1.25 * ((t : ℝ) + 2) - 0.625 := by push_cast; ring
  rw [h1, h2]
  exact cos_step_window _

/-- As `stepDetected_iff_phase`, with the crossing index a natural number
(the phase of any tick `t + 2` is positive, so negative indices cannot
occur). -/
theorem stepDetected_iff_phase_nat (t : ℕ) :
    stepDetectedAt (t + 2)
      ↔ ∃ k : ℕ, 2 * k * π + π / 2 ≤ 1.25 * ((t : ℝ) + 2) - 0.625
          ∧ 1.25 * ((t : ℝ) + 2) - 0.625 < 2 * k * π + π / 2 + 1.25 := by
  rw [stepDetected_iff_phase]
  have hpi := Real.pi_gt_three
  have ht : (0 : ℝ) ≤ (t : ℝ) := Nat.cast_nonneg t
  constructor
  · rintro ⟨k, h1, h2⟩
    have hk0 : 0 ≤ k := by
      by_contra hneg
      push_neg at hneg
      have hk1 : (k : ℝ) ≤ -1 := by
        have hk1' : k ≤ -1 := by omega
        exact_mod_cast hk1'
      have hkπ : (k : ℝ) * π ≤ -1 * π :=
        mul_le_mul_of_nonneg_right hk1 (le_of_lt Real.pi_pos)
      linarith
    have hcast : ((k.toNat : ℕ) : ℝ) = (k : ℝ) := by
      exact_mod_cast Int.toNat_of_nonneg hk0
    refine ⟨k.toNat, ?_, ?_⟩
    · rw [hcast]; exact h1
    · rw [hcast]; exact h2
  · rintro ⟨k, h1, h2⟩
    refine ⟨(k : ℤ), ?_, ?_⟩
    · push_cast
      convert h1 using 2
    · push_cast
      convert h2 using 2

/-- Any tick whose phase has passed a crossing point is at least tick 2. -/
theorem window_tick_ge_two (k : ℕ) (s : ℕ)
    (h : 2 * k * π + π / 2 ≤ 1.25 * (s : ℝ) - 0.625) : 2 ≤ s := by
  have hpi := Real.pi_gt_three
  have hk : (0 : ℝ) ≤ (k : ℝ) := Nat.cast_nonneg k
  have hkπ : (0 : ℝ) ≤ 2 * (k : ℝ) * π := by nlinarith
  by_contra hc
  push_neg at hc
  have hs1 : s ≤ 1 := by omega
  have hs1' : (s : ℝ) ≤ 1 := by exact_mod_cast hs1
  linarith

/-- Exactly one tick falls within the first phase step past each crossing
point `2kπ + π/2`: the phase advances by exactly the step width `1.25` per
tick. -/
theorem exists_unique_window_tick (k : ℕ) :
    ∃! s : ℕ, 2 * k * π + π / 2 ≤ 1.25 * (s : ℝ) - 0.625
      ∧ 1.25 * (s : ℝ) - 0.625 < 2 * k * π + π / 2 + 1.25 := by
  have hpi := Real.pi_gt_three
  have hk : (0 : ℝ) ≤ (k : ℝ) := Nat.cast_nonneg k
  have hkπ : (0 : ℝ) ≤ (k : ℝ) * π := mul_nonneg hk (le_of_lt Real.pi_pos)
  set A : ℝ := 2 * (k : ℝ) * π + π / 2 with hA
  have hA0 : (0 : ℝ) ≤ A := by rw [hA]; linarith
  set c : ℝ := (A + 0.625) / 1.25 with hc
  have hc0 : (0 : ℝ) ≤ c := by
    apply div_nonneg _ (by norm_num)
    linarith
  have hmul : 1.25 * c = A + 0.625 := by
    rw [hc]
    field_simp
  have hceil1 : c ≤ (⌈c⌉₊ : ℝ) := Nat.le_ceil c
  have hceil2 : (⌈c⌉₊ : ℝ) < c + 1 := Nat.ceil_lt_add_one hc0
  refine ⟨⌈c⌉₊, ⟨?_, ?_⟩, ?_⟩
  · linarith
  · linarith
  · rintro s' ⟨h1', h2'⟩
    have hs1 : c ≤ (s' : ℝ) := by linarith
    have hs2 : (s' : ℝ) < c + 1 := by linarith
    have hlt1 : (s' : ℝ) < ((⌈c⌉₊ + 1 : ℕ) : ℝ) := by push_cast; linarith
    have hlt2 : ((⌈c⌉₊ : ℕ) : ℝ) < ((s' + 1 : ℕ) : ℝ) := by push_cast; linarith
    have hn1 : s' < ⌈c⌉₊ + 1 := by exact_mod_cast hlt1
    have hn2 : ⌈c⌉₊ < s' + 1 := by exact_mod_cast hlt2
    omega

/-- Tick 2 is a detection (the first peak of `sin(1.25·s)` lies between ticks
1 and 2). -/
theorem detected_two : stepDetectedAt 2 := by
  have h := stepDetected_iff_phase_nat 0
  rw [show (0 : ℕ) + 2 = 2 from rfl] at h
  apply h.mpr
  refine ⟨0, ?_, ?_⟩
  · push_cast
    norm_num
    linarith [Real.pi_lt_d2]
  · push_cast
    norm_num
    linarith [Real.pi_gt_three]

/-- C2: running the Step Detector over the y-sequence of the motion
generator (seeded with `previousY = 9.8`, `wasRising = false`): no detection
fires on tick 0; for every tick `s ≥ 2`, a detection at `s` happens exactly
when `s − 1` is a discrete local maximum of the trace (strict rise into
`s − 1`, no rise into `s`) — the first tick after a local maximum of
`sin(1.25·s)`; and detections happen exactly once per full sine period:
every detection's phase `1.25·s − 0.625` lies in some period window
`[2kπ + π/2, 2kπ + π/2 + 2π)`, and each such window contains exactly one
detection. -/
theorem step_detection_periodic :
    (¬ stepDetectedAt 0)
    ∧ (∀ s : ℕ, 2 ≤ s →
        (stepDetectedAt s ↔
          (yAccel (s - 1) > yAccel (s - 2) ∧ ¬ (yAccel s > yAccel (s - 1)))))
    ∧ (∀ s : ℕ, stepDetectedAt s →
        ∃ k : ℕ, 2 * k * π + π / 2 ≤ 1.25 * (s : ℝ) - 0.625
          ∧ 1.25 * (s : ℝ) - 0.625 < 2 * k * π + π / 2 + 2 * π)
    ∧ (∀ k : ℕ, ∃! s : ℕ, stepDetectedAt s
        ∧ 2 * k * π + π / 2 ≤ 1.25 * (s : ℝ) - 0.625
        ∧ 1.25 * (s : ℝ) - 0.625 < 2 * k * π + π / 2 + 2 * π) := by
  have hpi := Real.pi_gt_three
  have hdet2 : ∀ s, stepDetectedAt s → 2 ≤ s := by
    intro s h
    by_contra hc
    push_neg at hc
    interval_cases s
    · exact not_stepDetected_zero h
    · exact not_stepDetected_one h
  refine ⟨not_stepDetected_zero, ?_, ?_, ?_⟩
  · intro s hs
    obtain ⟨t, rfl⟩ : ∃ t, s = t + 2 := ⟨s - 2, by omega⟩
    rw [show t + 2 - 1 = t + 1 from rfl, show t + 2 - 2 = t from rfl]
    exact stepDetected_iff_localmax t
  · intro s h
    have h2 := hdet2 s h
    obtain ⟨t, rfl⟩ : ∃ t, s = t + 2 := ⟨s - 2, by omega⟩
    obtain ⟨k, h1, h2'⟩ := (stepDetected_iff_phase_nat t).mp h
    have hφ : 1.25 * ((t : ℝ) + 2) - 0.625
        = 1.25 * (((t + 2 : ℕ)) : ℝ) - 0.625 := by push_cast; ring
    rw [hφ] at h1 h2'
    exact ⟨k, h1, by linarith⟩
  · intro k
    obtain ⟨s₀, ⟨hw1, hw2⟩, huniq⟩ := exists_unique_window_tick k
    have hs₀2 : 2 ≤ s₀ := window_tick_ge_two k s₀ hw1
    obtain ⟨t₀, ht₀⟩ : ∃ t, s₀ = t + 2 := ⟨s₀ - 2, by omega⟩
    have hφ₀ : 1.25 * ((t₀ : ℝ) + 2) - 0.625
        = 1.25 * ((s₀ : ℕ) : ℝ) - 0.625 := by rw [ht₀]; push_cast; ring
    have hdet : stepDetectedAt s₀ := by
      rw [ht₀]
      apply (stepDetected_iff_phase_nat t₀).mpr
      refine ⟨k, ?_, ?_⟩ <;> rw [hφ₀]
      · exact hw1
      · exact hw2
    refine ⟨s₀, ⟨hdet, hw1, by linarith⟩, ?_⟩
    rintro s' ⟨hdet', hw1', hw2'⟩
    have hs'2 := hdet2 s' hdet'
    obtain ⟨t', ht'⟩ : ∃ t, s' = t + 2 := ⟨s' - 2, by omega⟩
    have hdet'' : stepDetectedAt (t' + 2) := by rw [← ht']; exact hdet'
    obtain ⟨k', h1', h2'⟩ := (stepDetected_iff_phase_nat t').mp hdet''
    have hφ' : 1.25 * ((t' : ℝ) + 2) - 0.625
        = 1.25 * ((s' : ℕ) : ℝ) - 0.625 := by rw [ht']; push_cast; ring
    rw [hφ'] at h1' h2'
    have hkk : k' = k := by
      rcases lt_trichotomy k' k with hlt | heq | hgt
      · exfalso
        have hcast : (k' : ℝ) + 1 ≤ (k : ℝ) := by exact_mod_cast hlt
        have hmul : ((k' : ℝ) + 1) * π ≤ (k : ℝ) * π :=
          mul_le_mul_of_nonneg_right hcast (le_of_lt Real.pi_pos)
        linarith
      · exact heq
      · exfalso
        have hcast : (k : ℝ) + 1 ≤ (k' : ℝ) := by exact_mod_cast hgt
        have hmul : ((k : ℝ) + 1) * π ≤ (k' : ℝ) * π :=
          mul_le_mul_of_nonneg_right hcast (le_of_lt Real.pi_pos)
        linarith
    subst hkk
    exact huniq s' ⟨h1', h2'⟩

/-- Witness for C2's theorem: tick 2 is a concrete detection; the theorem's
local-maximum characterization is discharged at `s = 2` and the
once-per-period conjunct at the concrete detection `s = 2`. -/
theorem step_detection_periodic_witness :
    ¬ stepDetectedAt 0
    ∧ (stepDetectedAt 2 ↔ (yAccel 1 > yAccel 0 ∧ ¬ (yAccel 2 > yAccel 1)))
    ∧ (∃ k : ℕ, 2 * k * π + π / 2 ≤ 1.25 * ((2 : ℕ) : ℝ) - 0.625
        ∧ 1.25 * ((2 : ℕ) : ℝ) - 0.625 < 2 * k * π + π / 2 + 2 * π) := by
  refine ⟨step_detection_periodic.1, ?_,
    step_detection_periodic.2.2.1 2 detected_two⟩
  have h := step_detection_periodic.2.1 2 (by norm_num)
  simpa using h

end Mockstep
